import Mathlib

/-!
Verification of the yaml-jsonpath path compiler and evaluator (`pkg/yamlpath/path.go`).

The YAML node model, the compiled-path matcher pipeline, `newPath`, and the
individual matcher functions (`childThen`, `bracketChildThen`, `allChildrenThen`,
`arraySubscriptThen`, `filterThen`, `recursiveFilterThen`,
`propertyNameChildThen`, `propertyNameBracketChildThen`,
`propertyNameArraySubscriptThen`, `recurse`, `compose`, `bracketChildNames`,
`balanced`, `unescape`) are translated from the source.  The lexer, the slice
parser and the filter parser/evaluator live in files of the repository that are
not part of src/, so those pieces are modelled from the spec; each such
definition carries a doc comment saying so.

Go panics (out-of-range indexing, `panic(err)`) are modelled by `Option`:
a result of `none` stands for a run-time panic, `some r` for normal
termination with result `r`.  Go's lazy `iter.Seq` composition is observably
eager (every matcher body runs when invoked and `Find` collects the whole
sequence), so sequences are modelled as lists.
-/

/-- YAML node kinds as in go.yaml.in/yaml/v3: the zero value (an uninitialized
node) plus Document, Sequence, Mapping, Scalar and Alias. -/
inductive Kind : Type where
  | zero
  | document
  | sequence
  | mapping
  | scalar
  | aliasNode
deriving DecidableEq, Repr

/-- A YAML node: kind, tag, string value and the ordered content list.
For mapping nodes the content interleaves keys (even indices) and values
(odd indices); for sequences it is the element list; for documents the first
element is the root value. -/
inductive Node : Type where
  | mk (kind : Kind) (tag : String) (value : String) (content : List Node)

/-- The kind of a node. -/
def Node.kind : Node → Kind
  | .mk k _ _ _ => k

/-- The tag of a node. -/
def Node.tag : Node → String
  | .mk _ t _ _ => t

/-- The string value of a node. -/
def Node.value : Node → String
  | .mk _ _ v _ => v

/-- The content (children) of a node. -/
def Node.content : Node → List Node
  | .mk _ _ _ c => c

theorem Node.eta (n : Node) : Node.mk n.kind n.tag n.value n.content = n := by
  cases n; rfl

/-- Elements of a list at even positions (0, 2, 4, ...). -/
def evenIndexed {α : Type} : List α → List α
  | [] => []
  | [k] => [k]
  | k :: _ :: rest => k :: evenIndexed rest

/-- Elements of a list at odd positions (1, 3, 5, ...). -/
def oddIndexed {α : Type} : List α → List α
  | a :: b :: rest => (fun _ => b :: oddIndexed rest) a
  | _ => []

/-- Consecutive key/value pairs of a mapping content list (a trailing
unpaired element is dropped). -/
def pairsOf : List Node → List (Node × Node)
  | k :: v :: rest => (k, v) :: pairsOf rest
  | _ => []

/-- Go strings.TrimPrefix: remove the prefix once if present. -/
def trimPfx (s p : String) : String :=
  if s.toList.take p.toList.length = p.toList then String.mk (s.toList.drop p.toList.length)
  else s

/-- Go strings.TrimSuffix: remove the suffix once if present. -/
def trimSfx (s p : String) : String :=
  if s.toList.reverse.take p.toList.length = p.toList.reverse then
    String.mk ((s.toList.reverse.drop p.toList.length).reverse)
  else s

/-- The comma character. -/
def commaChar : Char := Char.ofNat 44

/-- Go strings.Split on a single-rune separator, over rune lists. -/
def splitChars (sep : Char) : List Char → List (List Char)
  | [] => [[]]
  | c :: rest =>
    match splitChars sep rest with
    | [] => [[c]]
    | cur :: more => if c = sep then [] :: cur :: more else (c :: cur) :: more

/-- Go strings.TrimSpace over rune lists: drop leading and trailing
whitespace. -/
def trimSpaceChars (cs : List Char) : List Char :=
  ((cs.dropWhile Char.isWhitespace).reverse.dropWhile Char.isWhitespace).reverse

/-- Go strings.TrimSpace. -/
def trimSpace (s : String) : String := String.mk (trimSpaceChars s.toList)

/-- The backslash character. -/
def backslashChar : Char := Char.ofNat 92

/-- The single-quote character. -/
def singleQuoteChar : Char := Char.ofNat 39

/-- The double-quote character. -/
def doubleQuoteChar : Char := Char.ofNat 34

/-- Sentinel standing for the lexer's eof rune, used as the initial previous
rune in `balanced`; it is distinct from every character in a path string. -/
def eofChar : Char := Char.ofNat 0

/-- Loop of `balanced` (path.go): walks the runes tracking the previous rune,
toggling the balance on each unescaped occurrence of the quote rune. -/
def balancedAux (q : Char) : List Char → Bool → Char → Bool
  | [], bal, _ => bal
  | r :: rest, bal, prev =>
    if r = q then
      if prev = backslashChar then balancedAux q rest bal r
      else balancedAux q rest (!bal) r
    else balancedAux q rest bal r

/-- Translation of `balanced` (path.go): whether the quote rune `q` occurs an
even number of times in `c`, not counting occurrences preceded by a backslash. -/
def balanced (c : String) (q : Char) : Bool :=
  balancedAux q c.toList true eofChar

/-- Loop of `unescape` (path.go): drops each backslash that begins an escape,
keeping an escaped backslash. -/
def unescapeAux : List Char → Bool → List Char
  | [], _ => []
  | r :: rest, escaped =>
    if r = backslashChar then
      if escaped then r :: unescapeAux rest false
      else unescapeAux rest true
    else r :: unescapeAux rest false

/-- Translation of `unescape` (path.go). -/
def unescape (raw : String) : String :=
  String.mk (unescapeAux raw.toList false)

/-- Loop of `bracketChildNames` (path.go): reconstitutes child names that
contain embedded commas, using quote balance.  Returns the accumulated
children together with the pending accumulator. -/
def bcnLoop : List String → List String → String → List String × String
  | [], children, accum => (children, accum)
  | c :: rest, children, accum =>
    if balanced c singleQuoteChar && balanced c doubleQuoteChar then
      if accum ≠ ("") then bcnLoop rest children (accum ++ (",") ++ c)
      else bcnLoop rest (children ++ [c]) ("")
    else
      if accum = ("") then bcnLoop rest children c
      else bcnLoop rest (children ++ [accum ++ (",") ++ c]) ("")

/-- Unquoting step of `bracketChildNames` (path.go): trim space, strip one
layer of single or double quotes, and unescape. -/
def unquoteChild (c : String) : String :=
  let c1 := trimSpace c
  let c2 :=
    if c1.toList.take 1 = [singleQuoteChar] then trimSfx (trimPfx c1 ("'")) ("'")
    else trimSfx (trimPfx c1 ("\x22")) ("\x22")
  unescape c2

/-- Translation of `bracketChildNames` (path.go): split on commas, put back
together the pieces whose quotes are unbalanced, then unquote each name. -/
def bracketChildNames (childNames : String) : List String :=
  let s := (splitChars commaChar childNames.toList).map String.mk
  let cp := bcnLoop s [] ("")
  let children := if cp.2 ≠ ("") then cp.1 ++ [cp.2] else cp.1
  children.map unquoteChild

/-- One element of an array-subscript union: a single index or a
`start:end:step` range whose components may each be omitted. -/
inductive IndexExpr : Type where
  | single (n : Int)
  | range (a b s : Option Int)
deriving DecidableEq, Repr

/-- An array subscript: the star subscript or a union of index expressions. -/
inductive Subscript : Type where
  | star
  | union (elems : List IndexExpr)
deriving DecidableEq, Repr

/-- Ascending index enumeration a, a+step, ... while below b (fuel-bounded;
the callers pass enough fuel for the enumeration to complete). -/
def upFrom (a b step : Int) : Nat → List Int
  | 0 => []
  | fuel + 1 => if a < b then a :: upFrom (a + step) b step fuel else []

/-- Descending index enumeration a, a+step, ... while above b (fuel-bounded). -/
def downFrom (a b step : Int) : Nat → List Int
  | 0 => []
  | fuel + 1 => if a > b then a :: downFrom (a + step) b step fuel else []

/-- Clamp an integer into the closed interval [lo, hi]. -/
def clampInt (x lo hi : Int) : Int := max lo (min x hi)

/-- Modelled from the spec: the slice parser (its source file is not under
src/) on a `start:end:step` range against a sequence of length `L`.  Omitted
step defaults to 1 and a zero step is an error; omitted start is 0 for a
positive step and L-1 otherwise; omitted end is L for a positive step and
-L-1 otherwise; negative start/end are normalized by adding L and both are
then clamped to [0, L] for a positive step and [-1, L-1] for a negative one;
indices are enumerated from start by step while short of end. -/
def rangeIndices (L : Nat) (oa ob os : Option Int) : Except String (List Int) :=
  let step := os.getD 1
  if step = 0 then .error ("array index step value must be non-zero")
  else
    let li : Int := (L : Int)
    let a0 := oa.getD (if step > 0 then 0 else li - 1)
    let b0 := ob.getD (if step > 0 then li else -li - 1)
    let a1 := if a0 < 0 then a0 + li else a0
    let b1 := if b0 < 0 then b0 + li else b0
    let a2 := if step > 0 then clampInt a1 0 li else clampInt a1 (-1) (li - 1)
    let b2 := if step > 0 then clampInt b1 0 li else clampInt b1 (-1) (li - 1)
    if step > 0 then .ok (upFrom a2 b2 step ((b2 - a2).toNat + 1))
    else .ok (downFrom a2 b2 step ((a2 - b2).toNat + 1))

/-- Modelled from the spec: the slice parser on a single integer index; a
negative index is translated by adding L and an out-of-range result is
dropped. -/
def singleIndex (L : Nat) (n : Int) : List Int :=
  let n1 := if n < 0 then n + (L : Int) else n
  if 0 ≤ n1 ∧ n1 < (L : Int) then [n1] else []

/-- Modelled from the spec: materialization of one union element. -/
def sliceIndex (L : Nat) : IndexExpr → Except String (List Int)
  | .single n => .ok (singleIndex L n)
  | .range a b s => rangeIndices L a b s

/-- Modelled from the spec: a union concatenates the materializations of its
elements in order, preserving duplicates. -/
def sliceUnion (L : Nat) : List IndexExpr → Except String (List Int)
  | [] => .ok []
  | ix :: rest =>
    match sliceIndex L ix with
    | .error e => .error e
    | .ok xs =>
      match sliceUnion L rest with
      | .error e => .error e
      | .ok ys => .ok (xs ++ ys)

/-- Modelled from the spec: the slice parser `slice` (its source file is not
under src/, and the name `slice` is taken in Mathlib), called by `arraySubscriptThen`: `*` materializes to 0..L-1, a
union to the concatenation of its elements. -/
def sliceSubscript : Subscript → Nat → Except String (List Int)
  | .star, L => .ok ((List.range L).map (fun i => (i : Int)))
  | .union elems, L => sliceUnion L elems

/-- Modelled from the spec: the lexer (its source file is not under src/)
rejects a slice whose step is literal zero, so a compiled path never carries
one.  `checkSubscript` is that validation at the subscript level. -/
def checkSubscript : Subscript → Bool
  | .star => true
  | .union elems =>
    elems.all (fun ix =>
      match ix with
      | .range _ _ (some s) => !(s == 0)
      | _ => true)

/-- Comparison operators of the filter sub-language (the regex-match operator
is outside the scope of the claims and omitted). -/
inductive CmpOp : Type where
  | eq | ne | lt | le | gt | ge
deriving DecidableEq, Repr

/-- Modelled from the spec: the typed values of the filter evaluator (whose
source file is not under src/): integer, boolean, null and string scalar
values, plus non-scalar nodes contributing their node identity.  Floating
point values are omitted; no claim depends on them. -/
inductive FValue : Type where
  | int (i : Int)
  | bool (b : Bool)
  | null
  | str (s : String)
  | node (n : Node)

/-- Structural node equality, standing for Go pointer identity in comparisons
of non-scalar values ("equality only against other identical nodes"). -/
def nodeEq : Node → Node → Bool
  | .mk k1 t1 v1 c1, .mk k2 t2 v2 c2 =>
    k1 == k2 && t1 == t2 && v1 == v2 && nodesEq c1 c2
where
  /-- Pointwise list version of `nodeEq`. -/
  nodesEq : List Node → List Node → Bool
  | [], [] => true
  | a :: as, b :: bs => nodeEq a b && nodesEq as bs
  | _, _ => false

/-- Modelled from the spec: value equality of the filter evaluator;
cross-type equality is false. -/
def fvalEq : FValue → FValue → Bool
  | .int a, .int b => a == b
  | .bool a, .bool b => a == b
  | .null, .null => true
  | .str a, .str b => a == b
  | .node a, .node b => nodeEq a b
  | _, _ => false

/-- Modelled from the spec: the concrete comparison of the filter evaluator;
equality and inequality are defined on any two values, ordering only between
two numeric values and false between any other pair. -/
def concreteCmp : CmpOp → FValue → FValue → Bool
  | .eq, l, r => fvalEq l r
  | .ne, l, r => !fvalEq l r
  | .lt, .int a, .int b => decide (a < b)
  | .lt, _, _ => false
  | .le, .int a, .int b => decide (a ≤ b)
  | .le, _, _ => false
  | .gt, .int a, .int b => decide (a > b)
  | .gt, _, _ => false
  | .ge, .int a, .int b => decide (a ≥ b)
  | .ge, _, _ => false

/-- Modelled from the spec: the typed value of a result node of a path query
inside a filter: a scalar node's value is derived from its tag and value, a
non-scalar node contributes its node identity. -/
def typedValue (n : Node) : FValue :=
  if n.kind = Kind.scalar then
    if n.tag = ("!!int") then
      match n.value.toInt? with
      | some i => FValue.int i
      | none => FValue.str n.value
    else if n.tag = ("!!bool") then FValue.bool (n.value == ("true"))
    else if n.tag = ("!!null") then FValue.null
    else FValue.str n.value
  else FValue.node n

mutual

/-- A compiled path: the matcher chain built by `newPath` (path.go),
represented as a tagged tree in place of Go's captured closures.  Each
constructor corresponds to one matcher builder of path.go; the final
sub-matcher of a chain is `identity`. -/
inductive PathExpr : Type where
  | identity
  | rootThen (sub : PathExpr)
  | recurseThen (inner : PathExpr)
  | childAll (sub : PathExpr)
  | childNamed (name : String) (sub : PathExpr)
  | bracketChild (names : List String) (sub : PathExpr)
  | arraySub (s : Subscript) (sub : PathExpr)
  | filterStep (f : FilterExpr) (sub : PathExpr)
  | recursiveFilterStep (f : FilterExpr) (sub : PathExpr)
  | propNameChild (name : String) (sub : PathExpr)
  | propNameBracket (names : List String) (sub : PathExpr)
  | propNameSub (s : Subscript) (sub : PathExpr)

/-- Modelled from the spec: a term of the filter expression tree (the filter
parser is not under src/): a literal or a path query rooted at the context
node or at the document root. -/
inductive FilterTerm : Type where
  | lit (v : FValue)
  | atPath (p : PathExpr)
  | rootPath (p : PathExpr)

/-- Modelled from the spec: the filter expression tree: existence of a term,
a comparison, negation, conjunction and disjunction (the regex-match variant
is outside the scope of the claims and omitted). -/
inductive FilterExpr : Type where
  | exist (t : FilterTerm)
  | cmp (op : CmpOp) (l r : FilterTerm)
  | not (e : FilterExpr)
  | and (l r : FilterExpr)
  | or (l r : FilterExpr)

end

/-- Translation of `childThen` (path.go) at construction time: the name `*`
selects the all-children matcher, any other name is unescaped and selects the
named-child matcher. -/
def childThen (childName : String) (sub : PathExpr) : PathExpr :=
  if childName = ("*") then .childAll sub
  else .childNamed (unescape childName) sub

/-- Translation of `recurse` (path.go): every node of every subtree, children
before their parent, each parent directly after its content. -/
def recurseNodes : List Node → List Node
  | [] => []
  | n :: rest => recurseNodes n.content ++ n :: recurseNodes rest
termination_by ns => sizeOf ns
decreasing_by
  · cases n; simp [Node.content]; omega
  · simp

/-- Result of the first-match scan in `childThen` (path.go): no key matched,
a key matched and its value exists, or a key matched at the very end of an
odd-length content list, where Go indexes one past the end and panics. -/
inductive Lookup : Type where
  | missing
  | panicked
  | found (v : Node)

/-- The scan of `childThen` (path.go): find the first even-index node whose
value is the child name and return the node after it. -/
def lookupFirst (name : String) : List Node → Lookup
  | [] => .missing
  | [k] => if k.value = name then .panicked else .missing
  | k :: v :: rest => if k.value = name then .found v else lookupFirst name rest

/-- The scan of `propertyNameChildThen` (path.go): find the first even-index
node whose value is the child name and return that key node itself. -/
def lookupFirstKey (name : String) : List Node → Option Node
  | [] => none
  | [k] => if k.value = name then some k else none
  | k :: _ :: rest => if k.value = name then some k else lookupFirstKey name rest

/-- The inner scan of `bracketChildThen` (path.go): the values paired with
every even-index key equal to the name, in document order; `none` when the
match sits at the very end of an odd-length content list, where Go indexes
one past the end and panics. -/
def allMatchValues (name : String) : List Node → Option (List Node)
  | [] => some []
  | [k] => if k.value = name then none else some []
  | k :: v :: rest =>
    match allMatchValues name rest with
    | none => none
    | some vs => if k.value = name then some (v :: vs) else some vs

/-- The outer loop of `bracketChildThen` (path.go): concatenate the matching
values of each name in the order the names are written. -/
def bracketEmit (names : List String) (content : List Node) : Option (List Node) :=
  match names with
  | [] => some []
  | nm :: rest =>
    match allMatchValues nm content with
    | none => none
    | some vs =>
      match bracketEmit rest content with
      | none => none
      | some tail => some (vs ++ tail)

/-- The inner scan of `propertyNameBracketChildThen` (path.go): every
even-index key equal to the name, in document order. -/
def allMatchKeys (name : String) (content : List Node) : List Node :=
  (evenIndexed content).filter (fun k => k.value == name)

/-- Translation of `compose` (path.go): feed every emitted node through the
next matcher and concatenate, propagating a panic from the first failing
element. -/
def composeEval : List Node → (Node → Option (List Node)) → Option (List Node)
  | [], _ => some []
  | n :: rest, f =>
    match f n with
    | none => none
    | some r =>
      match composeEval rest f with
      | none => none
      | some t => some (r ++ t)

/-- The sequence loop of `filterThen` (path.go): test each element with the
filter and feed the kept ones through the next matcher, in order. -/
def seqFilterEval (fil : Node → Option Bool) (f : Node → Option (List Node)) :
    List Node → Option (List Node)
  | [] => some []
  | c :: rest =>
    match fil c with
    | none => none
    | some b =>
      match (if b then f c else some []) with
      | none => none
      | some r =>
        match seqFilterEval fil f rest with
        | none => none
        | some t => some (r ++ t)

mutual

/-- The evaluator of a compiled path: one case per matcher of path.go,
applied to a context node under a fixed root.  `none` models a Go panic. -/
def applyPath : PathExpr → Node → Node → Option (List Node)
  | .identity, node, _ => some (if node.kind = Kind.zero then [] else [node])
  | .rootThen sub, node, root =>
    if node.kind = Kind.document then
      match node.content.head? with
      | none => none
      | some n0 => applyPath sub n0 root
    else applyPath sub node root
  | .recurseThen inner, node, root =>
    composeEval (recurseNodes [node]) (fun m => applyPath inner m root)
  | .childAll sub, node, root =>
    match node.kind with
    | Kind.mapping => composeEval (oddIndexed node.content) (fun m => applyPath sub m root)
    | Kind.sequence => composeEval node.content (fun m => applyPath sub m root)
    | _ => some []
  | .childNamed name sub, node, root =>
    if node.kind ≠ Kind.mapping then some []
    else
      match lookupFirst name node.content with
      | .panicked => none
      | .missing => some []
      | .found v => applyPath sub v root
  | .bracketChild names sub, node, root =>
    if node.kind ≠ Kind.mapping then some []
    else
      match bracketEmit names node.content with
      | none => none
      | some emitted => composeEval emitted (fun m => applyPath sub m root)
  | .arraySub s sub, node, root =>
    if node.kind = Kind.mapping ∧ s = Subscript.star then
      composeEval (oddIndexed node.content) (fun m => applyPath sub m root)
    else if node.kind ≠ Kind.sequence then some []
    else
      match sliceSubscript s node.content.length with
      | .error _ => none
      | .ok idxs =>
        composeEval (idxs.filterMap (fun i =>
            if 0 ≤ i ∧ i < (node.content.length : Int) then node.content.get? i.toNat
            else none))
          (fun m => applyPath sub m root)
  | .filterStep f sub, node, root =>
    if node.kind = Kind.sequence then
      seqFilterEval (fun c => evalFilter f c root) (fun c => applyPath sub c root)
        node.content
    else
      match evalFilter f node root with
      | none => none
      | some b => if b then applyPath sub node root else some []
  | .recursiveFilterStep f sub, node, root =>
    match evalFilter f node root with
    | none => none
    | some b => if b then applyPath sub node root else some []
  | .propNameChild name sub, node, root =>
    if node.kind ≠ Kind.mapping then some []
    else
      match lookupFirstKey name node.content with
      | none => some []
      | some k => applyPath sub k root
  | .propNameBracket names sub, node, root =>
    if node.kind ≠ Kind.mapping then some []
    else
      composeEval (names.flatMap (fun nm => allMatchKeys nm node.content))
        (fun m => applyPath sub m root)
  | .propNameSub s sub, node, root =>
    if node.kind = Kind.mapping ∧ s = Subscript.star then
      composeEval (evenIndexed node.content) (fun m => applyPath sub m root)
    else some []

/-- Modelled from the spec: the filter evaluator (its source file is not under
src/): existence of a non-empty term, comparison over the lifted value lists
(true iff both sides are non-empty and the concrete comparison holds for every
pair), negation and short-circuiting conjunction and disjunction. -/
def evalFilter : FilterExpr → Node → Node → Option Bool
  | .exist t, node, root =>
    match evalTerm t node root with
    | none => none
    | some vs => some (!vs.isEmpty)
  | .cmp op l r, node, root =>
    match evalTerm l node root with
    | none => none
    | some ls =>
      match evalTerm r node root with
      | none => none
      | some rs =>
        some (!ls.isEmpty && !rs.isEmpty &&
          ls.all (fun lv => rs.all (fun rv => concreteCmp op lv rv)))
  | .not e, node, root =>
    match evalFilter e node root with
    | none => none
    | some b => some (!b)
  | .and l r, node, root =>
    match evalFilter l node root with
    | none => none
    | some b => if b then evalFilter r node root else some false
  | .or l r, node, root =>
    match evalFilter l node root with
    | none => none
    | some b => if b then some true else evalFilter r node root

/-- Modelled from the spec: lifting one side of a filter to a list of typed
values: a literal becomes a singleton, a path query the typed values of its
result nodes, evaluated against the context node for `@` and against the
document root for `$`. -/
def evalTerm : FilterTerm → Node → Node → Option (List FValue)
  | .lit v, _, _ => some [v]
  | .atPath p, node, root =>
    match applyPath p node root with
    | none => none
    | some ns => some (ns.map typedValue)
  | .rootPath p, _, root =>
    match applyPath p root root with
    | none => none
    | some ns => some (ns.map typedValue)

end

/-- Translation of `Path.find` (path.go): apply the compiled path to a node,
which also serves as the root. -/
def findNodes (p : PathExpr) (n : Node) : Option (List Node) :=
  applyPath p n n

/-- Translation of `Path.Find` (path.go): the collected matches paired with
the always-nil error ("currently, errors are not possible"); `none` models a
panic during evaluation. -/
def Find (p : PathExpr) (n : Node) : Option (List Node × Option String) :=
  match findNodes p n with
  | none => none
  | some r => some (r, none)

/-- A lexeme as consumed by `newPath` (path.go).  The lexer itself is not
under src/; following the spec, a leading dollar emits Root, `..text` emits
RecursiveDescent, names and bracketed name lists are carried as their raw
text, and array subscripts are validated.  The payloads of the subscript and
filter-begin lexemes carry the output of the slice-level validation and of
the filter parser, both of which are modelled from the spec. -/
inductive Lexeme : Type where
  | error (msg : String)
  | eof
  | identity
  | root
  | dotChild (v : String)
  | undottedChild (v : String)
  | bracketChild (v : String)
  | arraySubscript (s : Subscript)
  | recursiveDescent (v : String)
  | filterBegin (f : FilterExpr)
  | recursiveFilterBegin (f : FilterExpr)
  | filterEnd
  | propertyName (v : String)
  | bracketPropertyName (v : String)
  | arraySubscriptPropertyName (s : Subscript)
  | filterToken (v : String)

/-- The filter-collection loop of `newPath` (path.go): gather the lexemes of
a filter up to the matching FilterEnd, tracking the nesting level, failing on
an Error lexeme or on end of input.  The returned suffix carries the bound
needed for the termination of `newPath`. -/
def collectFilter : (ls : List Lexeme) → Nat → List Lexeme →
    Except String (List Lexeme × { rest : List Lexeme // rest.length ≤ ls.length })
  | [], _, _ => .error ("missing end of filter")
  | lx :: rest, level, acc =>
    match lx with
    | .error msg => .error msg
    | .eof => .error ("missing end of filter")
    | .filterEnd =>
      if level = 1 then .ok (acc, ⟨rest, by simp⟩)
      else
        match collectFilter rest (level - 1) (acc ++ [lx]) with
        | .error e => .error e
        | .ok (c, ⟨r, h⟩) => .ok (c, ⟨r, by simp only [List.length_cons]; omega⟩)
    | .filterBegin f =>
      match collectFilter rest (level + 1) (acc ++ [lx]) with
      | .error e => .error e
      | .ok (c, ⟨r, h⟩) => .ok (c, ⟨r, by simp only [List.length_cons]; omega⟩)
    | _ =>
      match collectFilter rest level (acc ++ [lx]) with
      | .error e => .error e
      | .ok (c, ⟨r, h⟩) => .ok (c, ⟨r, by simp only [List.length_cons]; omega⟩)

/-- Modelled from the spec: `newFilterNode` composed with `newFilter` (the
filter parser, whose source file is not under src/) turns a collected run of
filter lexemes into a filter expression tree.  Its internals are outside
src/, so the model carries the already-parsed tree as the payload of the
filter-begin lexeme; the collected run is retained to mirror the collection
loop of `newPath`. -/
def newFilterNode (f : FilterExpr) (_collected : List Lexeme) : FilterExpr := f

/-- Translation of `newPath` (path.go) over a lexeme stream: one case per
lexeme type of the source switch; an exhausted stream behaves as EOF (the
lexer keeps returning EOF).  Unmatched lexeme types fall through to the
"invalid path syntax" error as in the source. -/
def newPath : (ls : List Lexeme) → Except String PathExpr
  | [] => .ok .identity
  | .error msg :: _ => .error msg
  | .eof :: _ => .ok .identity
  | .identity :: _ => .ok .identity
  | .root :: rest =>
    match newPath rest with
    | .error e => .error e
    | .ok sub => .ok (.rootThen sub)
  | .recursiveDescent v :: rest =>
    match newPath rest with
    | .error e => .error e
    | .ok sub =>
      let childName := trimPfx v ("..")
      if childName = ("*") then .ok (.recurseThen (.childAll sub))
      else if childName = ("") then .ok (.recurseThen sub)
      else .ok (.recurseThen (childThen childName sub))
  | .dotChild v :: rest =>
    match newPath rest with
    | .error e => .error e
    | .ok sub => .ok (childThen (trimPfx v (".")) sub)
  | .undottedChild v :: rest =>
    match newPath rest with
    | .error e => .error e
    | .ok sub => .ok (childThen v sub)
  | .bracketChild v :: rest =>
    match newPath rest with
    | .error e => .error e
    | .ok sub =>
      let childNames := trimSpace (trimSfx (trimPfx (trimSpace v) ("[")) ("]"))
      .ok (.bracketChild (bracketChildNames childNames) sub)
  | .arraySubscript s :: rest =>
    match newPath rest with
    | .error e => .error e
    | .ok sub => .ok (.arraySub s sub)
  | .filterBegin f :: rest =>
    match collectFilter rest 1 [] with
    | .error e => .error e
    | .ok (collected, ⟨rest1, _⟩) =>
      match newPath rest1 with
      | .error e => .error e
      | .ok sub => .ok (.filterStep (newFilterNode f collected) sub)
  | .recursiveFilterBegin f :: rest =>
    match collectFilter rest 1 [] with
    | .error e => .error e
    | .ok (collected, ⟨rest1, _⟩) =>
      match newPath rest1 with
      | .error e => .error e
      | .ok sub => .ok (.recursiveFilterStep (newFilterNode f collected) sub)
  | .propertyName v :: rest =>
    match newPath rest with
    | .error e => .error e
    | .ok sub =>
      let childName := trimSfx (trimPfx v (".")) ("~")
      .ok (.propNameChild (unescape childName) sub)
  | .bracketPropertyName v :: rest =>
    match newPath rest with
    | .error e => .error e
    | .ok sub =>
      let childNames := trimSpace (trimSfx (trimPfx (trimSfx (trimSpace v) ("~")) ("[")) ("]"))
      .ok (.propNameBracket (bracketChildNames childNames) sub)
  | .arraySubscriptPropertyName s :: rest =>
    match newPath rest with
    | .error e => .error e
    | .ok sub => .ok (.propNameSub s sub)
  | .filterEnd :: _ => .error ("invalid path syntax")
  | .filterToken _ :: _ => .error ("invalid path syntax")
termination_by ls => ls.length
decreasing_by all_goals (simp only [List.length_cons]; omega)

/-- Well-formed YAML tree: every mapping node has an even number of content
entries (keys interleaved with values), recursively.  The external YAML
parser guarantees this shape. -/
def wfNode : Node → Bool
  | .mk k _ _ content =>
    ((!(k == Kind.mapping)) || content.length % 2 == 0) && wfNodes content
where
  /-- Conjunction of `wfNode` over a list. -/
  wfNodes : List Node → Bool
  | [] => true
  | n :: rest => wfNode n && wfNodes rest

mutual

/-- Lexer-validated sub-path: what `newPath` can build after the leading
root step from a lexer-produced stream: no interior root step (the lexer
emits Root only for a leading dollar) and every array subscript passed the
lexer's validation (`checkSubscript`). -/
def wfSub : PathExpr → Bool
  | .identity => true
  | .rootThen _ => false
  | .recurseThen inner => wfSub inner
  | .childAll sub => wfSub sub
  | .childNamed _ sub => wfSub sub
  | .bracketChild _ sub => wfSub sub
  | .arraySub s sub => checkSubscript s && wfSub sub
  | .filterStep f sub => wfFilter f && wfSub sub
  | .recursiveFilterStep f sub => wfFilter f && wfSub sub
  | .propNameChild _ sub => wfSub sub
  | .propNameBracket _ sub => wfSub sub
  | .propNameSub s sub => checkSubscript s && wfSub sub

/-- Lexer-validated filter expression: every embedded path query is a
lexer-validated sub-path (the filter grammar has no root step inside a
query's tail). -/
def wfFilter : FilterExpr → Bool
  | .exist t => wfTerm t
  | .cmp _ l r => wfTerm l && wfTerm r
  | .not e => wfFilter e
  | .and l r => wfFilter l && wfFilter r
  | .or l r => wfFilter l && wfFilter r

/-- Lexer-validated filter term. -/
def wfTerm : FilterTerm → Bool
  | .lit _ => true
  | .atPath p => wfSub p
  | .rootPath p => wfSub p

end

/-- Lexer-validated compiled path: an optional leading root step followed by
a lexer-validated sub-path. -/
def wfPathTop : PathExpr → Bool
  | .rootThen sub => wfSub sub
  | p => wfSub p

/-- The children a node contributes in `allChildrenThen` (path.go): mapping
values, sequence elements, nothing for other kinds. -/
def childrenOfNode (n : Node) : List Node :=
  match n.kind with
  | Kind.mapping => oddIndexed n.content
  | Kind.sequence => n.content
  | _ => []

/-- Positions-based description of the even-index elements of a list, used to
state claims about key emission independently of the implementation scan. -/
def specEvenPositions {α : Type} (l : List α) : List α :=
  (List.range l.length).filterMap (fun i => if i % 2 = 0 then l.get? i else none)

/-- Spec-side description of the dot-child scan: the value of the first
key/value pair whose key spells the name. -/
def firstValue (name : String) (content : List Node) : Option Node :=
  ((pairsOf content).find? (fun kv => kv.1.value == name)).map (fun kv => kv.2)

/-- Spec-side description of the bracket-child emission: for each name in the
order written, the values of every pair whose key spells that name, in
document order. -/
def specBracketEmission (names : List String) (content : List Node) : List Node :=
  names.flatMap (fun nm =>
    ((pairsOf content).filter (fun kv => kv.1.value == nm)).map (fun kv => kv.2))

theorem composeEval_eq_flatMap {ns : List Node} {f : Node → Option (List Node)}
    {g : Node → List Node} (h : ∀ m ∈ ns, f m = some (g m)) :
    composeEval ns f = some (ns.flatMap g) := by
  induction ns with
  | nil => simp [composeEval]
  | cons n rest ih =>
    have hn := h n (by simp)
    have hrest : ∀ m ∈ rest, f m = some (g m) := fun m hm => h m (by simp [hm])
    simp [composeEval, hn, ih hrest]

theorem composeEval_isSome {ns : List Node} {f : Node → Option (List Node)}
    (h : ∀ m ∈ ns, (f m).isSome) : (composeEval ns f).isSome := by
  induction ns with
  | nil => simp [composeEval]
  | cons n rest ih =>
    have hn := h n (by simp)
    have hrest := ih (fun m hm => h m (by simp [hm]))
    rcases Option.isSome_iff_exists.mp hn with ⟨r, hr⟩
    rcases Option.isSome_iff_exists.mp hrest with ⟨t, ht⟩
    simp [composeEval, hr, ht]

theorem mem_of_mem_evenIndexed {α : Type} : ∀ {l : List α} {a : α},
    a ∈ evenIndexed l → a ∈ l
  | [], _, h => by simp [evenIndexed] at h
  | [k], a, h => by simpa [evenIndexed] using h
  | k :: b :: rest, a, h => by
    simp only [evenIndexed, List.mem_cons] at h ⊢
    rcases h with h | h
    · exact Or.inl h
    · exact Or.inr (Or.inr (mem_of_mem_evenIndexed h))

theorem mem_of_mem_oddIndexed {α : Type} : ∀ {l : List α} {a : α},
    a ∈ oddIndexed l → a ∈ l
  | [], _, h => by simp [oddIndexed] at h
  | [k], a, h => by simp [oddIndexed] at h
  | k :: b :: rest, a, h => by
    simp only [oddIndexed, List.mem_cons] at h ⊢
    rcases h with h | h
    · exact Or.inr (Or.inl h)
    · exact Or.inr (Or.inr (mem_of_mem_oddIndexed h))

theorem recurseNodes_singleton (n : Node) :
    recurseNodes [n] = recurseNodes n.content ++ [n] := by
  simp [recurseNodes]

/-- C2: for every input, `newPath` returns exactly one of a compiled path
with no error or an error with no path, and it never crashes.  The lexer is
not under src/, so the statement quantifies over every lexeme stream the
lexer could emit, which subsumes every input string; the two-valued `Except`
result models Go's pair of which exactly one side is non-nil on every return
of `newPath`, and totality of the Lean function models crash freedom. -/
theorem newPath_definite_outcome (ls : List Lexeme) :
    (∃ p, newPath ls = Except.ok p) ∨ (∃ e, newPath ls = Except.error e) := by
  cases h : newPath ls with
  | ok p => exact Or.inl ⟨p, rfl⟩
  | error e => exact Or.inr ⟨e, rfl⟩

def cC4 : Node := Node.mk Kind.scalar ("!!str") ("x") []

def nC4 : Node := Node.mk Kind.sequence ("") ("") [cC4]

/-- C4 counterexample: on a sequence node with one scalar child, the
recursive-descent matcher emits the child first and the node itself last
(some [child, node]), which is not the claimed order of the current node
followed by its descendants. -/
theorem recursive_descent_order_counterexample :
    applyPath (.recurseThen .identity) nC4 nC4 = some [cC4, nC4] ∧
      ([cC4, nC4] : List Node) ≠ [nC4, cC4] := by
  constructor
  · simp [applyPath, recurseNodes, nC4, cC4, Node.content, Node.kind, composeEval]
  · simp [nC4, cC4]

/-- C4 (amended): the recursive-descent matcher emits all transitive
descendants of the current node in post-order of the subtree walk (children
before their parents) followed by the current node itself, which is the last
node emitted, and each emitted node is fed through the next matcher in that
emission order. -/
theorem recursive_descent_emission (n : Node) (sub : PathExpr) (root : Node) :
    applyPath (.recurseThen sub) n root
      = composeEval (recurseNodes n.content ++ [n]) (fun m => applyPath sub m root) ∧
    (recurseNodes [n]).getLast? = some n := by
  refine ⟨?_, ?_⟩
  · simp [applyPath, recurseNodes]
  · simp [recurseNodes]

theorem specEvenPositions_nil {α : Type} : specEvenPositions ([] : List α) = [] := by
  simp [specEvenPositions]

theorem specEvenPositions_single {α : Type} (k : α) : specEvenPositions [k] = [k] := by
  simp [specEvenPositions, List.range_succ]

theorem specEvenPositions_cons2 {α : Type} (k b : α) (rest : List α) :
    specEvenPositions (k :: b :: rest) = k :: specEvenPositions rest := by
  simp only [specEvenPositions, List.length_cons]
  rw [List.range_succ_eq_map, List.range_succ_eq_map]
  simp [List.filterMap_cons, List.filterMap_map, Function.comp]
  congr 1
  funext i
  have h2 : (i + 1 + 1) % 2 = i % 2 := by omega
  simp [Function.comp, Nat.succ_eq_add_one, h2]

theorem evenIndexed_eq_spec {α : Type} : ∀ (l : List α), evenIndexed l = specEvenPositions l
  | [] => by simp [evenIndexed, specEvenPositions_nil]
  | [k] => by simp [evenIndexed, specEvenPositions_single]
  | k :: b :: rest => by
    simp [evenIndexed, specEvenPositions_cons2, evenIndexed_eq_spec rest]

/-- C9: the property-name array-subscript step applied with the star
subscript to a Mapping emits exactly the key nodes (the nodes at even content
indices) in declaration order, each fed through the next matcher in that
order; applied to a non-Mapping node (in particular a Sequence) it emits
nothing, and with a subscript other than star it emits nothing. -/
theorem property_name_subscript_emits_keys (s : Subscript) (sub : PathExpr) (n root : Node) :
    (n.kind = Kind.mapping →
      applyPath (.propNameSub Subscript.star sub) n root
        = composeEval (specEvenPositions n.content) (fun m => applyPath sub m root)) ∧
    (n.kind ≠ Kind.mapping → applyPath (.propNameSub s sub) n root = some []) ∧
    (s ≠ Subscript.star → applyPath (.propNameSub s sub) n root = some []) := by
  refine ⟨fun hm => ?_, fun hm => ?_, fun hs => ?_⟩
  · simp [applyPath, hm, evenIndexed_eq_spec]
  · simp [applyPath, hm]
  · simp [applyPath, hs]

def kW : Node := Node.mk Kind.scalar ("!!str") ("a") []

def vW : Node := Node.mk Kind.scalar ("!!int") ("1") []

def kW2 : Node := Node.mk Kind.scalar ("!!str") ("b") []

def vW2 : Node := Node.mk Kind.scalar ("!!int") ("2") []

def mapW : Node := Node.mk Kind.mapping ("") ("") [kW, vW, kW2, vW2]

def seqW : Node := Node.mk Kind.sequence ("") ("") [mapW]

/-- C9 witness: on a concrete two-key mapping the star property-name
subscript emits the two key nodes, on the concrete sequence it emits nothing,
and a non-star subscript emits nothing on the mapping. -/
theorem property_name_subscript_emits_keys_witness :
    applyPath (.propNameSub Subscript.star .identity) mapW mapW = some [kW, kW2] ∧
    applyPath (.propNameSub Subscript.star .identity) seqW seqW = some [] ∧
    applyPath (.propNameSub (Subscript.union [.single 0]) .identity) mapW mapW = some [] := by
  refine ⟨?_, ?_, ?_⟩
  · have h := (property_name_subscript_emits_keys Subscript.star PathExpr.identity mapW mapW).1
      (by simp [mapW, Node.kind])
    rw [h]
    simp [mapW, Node.content, specEvenPositions_cons2, specEvenPositions_nil, composeEval,
      applyPath, kW, kW2, Node.kind]
  · exact (property_name_subscript_emits_keys Subscript.star PathExpr.identity seqW seqW).2.1
      (by simp [seqW, Node.kind])
  · exact (property_name_subscript_emits_keys (Subscript.union [.single 0]) PathExpr.identity
      mapW mapW).2.2 (by simp)

def fC10 : FilterExpr := .exist (.atPath (.childNamed ("a") .identity))

/-- C10: a recursive filter step tests the filter against each visited node
itself, a Sequence node included, keeping the node exactly when the filter
holds on it; the elements of a visited Sequence are not individually
filtered by this step, unlike the plain filter step.  The first conjunct
gives the composed semantics of a recursive descent followed by the
recursive-filter matcher; the remaining conjuncts exhibit the contrast on a
concrete sequence whose element satisfies the filter while the sequence node
itself does not. -/
theorem recursive_filter_tests_each_visited_node (f : FilterExpr) (sub : PathExpr) (n root : Node) :
    (applyPath (.recurseThen (.recursiveFilterStep f sub)) n root
      = composeEval (recurseNodes [n]) (fun m =>
          match evalFilter f m root with
          | none => none
          | some b => if b then applyPath sub m root else some [])) ∧
    applyPath (.recursiveFilterStep fC10 .identity) seqW seqW = some [] ∧
    applyPath (.filterStep fC10 .identity) seqW seqW = some [mapW] := by
  refine ⟨?_, ?_, ?_⟩
  · simp only [applyPath]
  · simp [applyPath, evalFilter, evalTerm, fC10, seqW, mapW, Node.kind, Node.content,
      lookupFirst, kW, vW, kW2, vW2, Node.value]
  · simp [applyPath, evalFilter, evalTerm, fC10, seqW, mapW, Node.kind, Node.content,
      lookupFirst, kW, vW, kW2, vW2, Node.value, seqFilterEval, typedValue, composeEval,
      Node.tag]

theorem lookupFirst_eq_firstValue (name : String) : ∀ (content : List Node),
    content.length % 2 = 0 →
    lookupFirst name content = (firstValue name content).elim Lookup.missing Lookup.found
  | [], _ => by simp [lookupFirst, firstValue, pairsOf]
  | [k], h => by simp at h
  | k :: v :: rest, h => by
    have hr : rest.length % 2 = 0 := by simp only [List.length_cons] at h; omega
    by_cases hk : k.value = name
    · simp [lookupFirst, firstValue, pairsOf, hk]
    · simp [lookupFirst, firstValue, pairsOf, hk,
        lookupFirst_eq_firstValue name rest hr]

/-- C3 (amended): the DotChild and UndottedChild matcher emits the value
paired with only the first key of a Mapping whose value equals the name (one
node when a key matches, none otherwise; later duplicate keys contribute
nothing), and emits nothing for non-Mapping input.  The all-matches
behaviour of the claim belongs to the bracket-child matcher. -/
theorem dot_child_matches_first_key_only (name : String) (sub : PathExpr) (n root : Node) :
    (n.kind = Kind.mapping → n.content.length % 2 = 0 →
      applyPath (.childNamed name sub) n root
        = (firstValue name n.content).elim (some []) (fun v => applyPath sub v root)) ∧
    (n.kind ≠ Kind.mapping → applyPath (.childNamed name sub) n root = some []) := by
  refine ⟨fun hm he => ?_, fun hm => ?_⟩
  · simp only [applyPath, hm, ne_eq, not_true_eq_false, if_false]
    rw [lookupFirst_eq_firstValue name n.content he]
    cases firstValue name n.content <;> simp
  · simp [applyPath, hm]

def vW3 : Node := Node.mk Kind.scalar ("!!int") ("2") []

def dupMap : Node := Node.mk Kind.mapping ("") ("") [kW, vW, kW, vW3]

/-- C3 counterexample: on a mapping with two keys spelled a, the compiled
dot-child step emits only the first value, not one value node per matching
key as the claim states. -/
theorem dot_child_duplicate_keys_counterexample :
    newPath [Lexeme.dotChild (".a")] = Except.ok (PathExpr.childNamed ("a") .identity) ∧
    applyPath (.childNamed ("a") .identity) dupMap dupMap = some [vW] ∧
    (some [vW] : Option (List Node)) ≠ some [vW, vW3] := by
  refine ⟨?_, ?_, ?_⟩
  · simp [newPath, trimPfx, childThen, unescape, unescapeAux, backslashChar]
  · simp [applyPath, dupMap, Node.kind, Node.content, lookupFirst, kW, vW, Node.value]
  · simp

/-- C3 witness: on a concrete two-key mapping the dot-child step emits the
value of the first key spelled a and emits nothing on a sequence. -/
theorem dot_child_matches_first_key_only_witness :
    applyPath (.childNamed ("a") .identity) dupMap dupMap
      = (firstValue ("a") dupMap.content).elim (some []) (fun v => applyPath .identity v dupMap) ∧
    applyPath (.childNamed ("a") .identity) seqW seqW = some [] := by
  refine ⟨?_, ?_⟩
  · exact (dot_child_matches_first_key_only ("a") .identity dupMap dupMap).1
      (by simp [dupMap, Node.kind]) (by simp [dupMap, Node.content])
  · exact (dot_child_matches_first_key_only ("a") .identity seqW seqW).2
      (by simp [seqW, Node.kind])

theorem allMatchValues_eq (nm : String) : ∀ (content : List Node),
    content.length % 2 = 0 →
    allMatchValues nm content
      = some (((pairsOf content).filter (fun kv => kv.1.value == nm)).map (fun kv => kv.2))
  | [], _ => by simp [allMatchValues, pairsOf]
  | [k], h => by simp at h
  | k :: v :: rest, h => by
    have hr : rest.length % 2 = 0 := by simp only [List.length_cons] at h; omega
    by_cases hk : k.value = nm
    · simp [allMatchValues, allMatchValues_eq nm rest hr, pairsOf, hk]
    · simp [allMatchValues, allMatchValues_eq nm rest hr, pairsOf, hk]

theorem bracketEmit_eq (content : List Node) (he : content.length % 2 = 0) :
    ∀ (names : List String),
    bracketEmit names content = some (specBracketEmission names content)
  | [] => by simp [bracketEmit, specBracketEmission]
  | nm :: rest => by
    simp [bracketEmit, allMatchValues_eq nm content he, bracketEmit_eq content he rest,
      specBracketEmission]

/-- C7: on a Mapping node the bracket-child step emits, for each listed name
in the order written, the value node of every key equal to that name in
document order - the results are grouped by name order first, then document
order within each name, duplicates preserved - and each emitted node is fed
through the next matcher in that order. -/
theorem bracket_child_order (names : List String) (sub : PathExpr) (n root : Node)
    (hm : n.kind = Kind.mapping) (he : n.content.length % 2 = 0) :
    applyPath (.bracketChild names sub) n root
      = composeEval (specBracketEmission names n.content) (fun m => applyPath sub m root) := by
  simp only [applyPath, hm, ne_eq, not_true_eq_false, if_false]
  rw [bracketEmit_eq n.content he names]

/-- C7 witness: on a concrete mapping with keys a then b, the bracket step
with names written b then a yields the b value before the a value. -/
theorem bracket_child_order_witness :
    applyPath (.bracketChild [("b"), ("a")] .identity) mapW mapW = some [vW2, vW] := by
  rw [bracket_child_order [("b"), ("a")] .identity mapW mapW (by simp [mapW, Node.kind])
    (by simp [mapW, Node.content])]
  simp [specBracketEmission, mapW, Node.content, pairsOf, kW, kW2, Node.value, vW, vW2,
    composeEval, applyPath, Node.kind]

/-- C6: in a comparison filter each side is lifted to a list of values and
the filter is true exactly when the left list is non-empty, the right list is
non-empty and the concrete comparison holds for every pair drawn from the two
lists; in particular a comparison with an empty side is false. -/
theorem comparison_filter_forall_product (op : CmpOp) (lt rt : FilterTerm) (ctx root : Node)
    (lvs rvs : List FValue)
    (hl : evalTerm lt ctx root = some lvs) (hr : evalTerm rt ctx root = some rvs) :
    (evalFilter (.cmp op lt rt) ctx root = some true ↔
      lvs ≠ [] ∧ rvs ≠ [] ∧ ∀ l ∈ lvs, ∀ r ∈ rvs, concreteCmp op l r = true) ∧
    ((lvs = [] ∨ rvs = []) → evalFilter (.cmp op lt rt) ctx root = some false) := by
  have he : evalFilter (.cmp op lt rt) ctx root
      = some (!lvs.isEmpty && !rvs.isEmpty &&
          lvs.all (fun lv => rvs.all (fun rv => concreteCmp op lv rv))) := by
    simp [evalFilter, hl, hr]
  refine ⟨?_, fun h => ?_⟩
  · rw [he]
    simp [List.all_eq_true, and_assoc]
  · rcases h with h | h <;> simp [he, h]

/-- C6 witness: both sides lifted to singleton literal lists satisfy the
product rule, and an empty left side (a path query matching nothing on a
scalar context) makes the comparison false. -/
theorem comparison_filter_forall_product_witness :
    (evalFilter (.cmp CmpOp.eq (.lit (FValue.int 3)) (.lit (FValue.int 3))) kW kW
        = some true ↔
      ([FValue.int 3] : List FValue) ≠ [] ∧ ([FValue.int 3] : List FValue) ≠ [] ∧
      ∀ l ∈ [FValue.int 3], ∀ r ∈ [FValue.int 3], concreteCmp CmpOp.eq l r = true) ∧
    evalFilter (.cmp CmpOp.eq (.atPath (.childNamed ("a") .identity)) (.lit (FValue.int 3)))
      kW kW = some false := by
  refine ⟨?_, ?_⟩
  · exact (comparison_filter_forall_product CmpOp.eq (.lit (FValue.int 3))
      (.lit (FValue.int 3)) kW kW [FValue.int 3] [FValue.int 3]
      (by simp [evalTerm]) (by simp [evalTerm])).1
  · exact (comparison_filter_forall_product CmpOp.eq
      (.atPath (.childNamed ("a") .identity)) (.lit (FValue.int 3)) kW kW [] [FValue.int 3]
      (by simp [evalTerm, applyPath, kW, Node.kind])
      (by simp [evalTerm])).2 (Or.inl rfl)

theorem rangeIndices_ok (L : Nat) (oa ob os : Option Int) (h : os.getD 1 ≠ 0) :
    ∃ xs, rangeIndices L oa ob os = Except.ok xs := by
  unfold rangeIndices
  rw [if_neg h]
  split
  · exact ⟨_, rfl⟩
  · exact ⟨_, rfl⟩

theorem sliceUnion_ok (L : Nat) : ∀ (elems : List IndexExpr),
    (elems.all (fun ix =>
      match ix with
      | .range _ _ (some s) => !(s == 0)
      | _ => true)) = true →
    ∃ xs, sliceUnion L elems = Except.ok xs
  | [], _ => ⟨[], rfl⟩
  | ix :: rest, h => by
    simp only [List.all_cons, Bool.and_eq_true] at h
    have hix : ∃ xs, sliceIndex L ix = Except.ok xs := by
      cases ix with
      | single n => exact ⟨_, rfl⟩
      | range a b s =>
        refine rangeIndices_ok L a b s ?_
        cases s with
        | none => simp
        | some sv =>
          have := h.1
          simp only [Bool.not_eq_true', beq_eq_false_iff_ne, ne_eq] at this
          simpa using this
    rcases hix with ⟨xs, hxs⟩
    rcases sliceUnion_ok L rest h.2 with ⟨ys, hys⟩
    exact ⟨xs ++ ys, by simp [sliceUnion, hxs, hys]⟩

theorem checkSubscript_ok (s : Subscript) (L : Nat) (hs : checkSubscript s = true) :
    ∃ idxs, sliceSubscript s L = Except.ok idxs := by
  cases s with
  | star => exact ⟨_, rfl⟩
  | union elems =>
    simp only [checkSubscript] at hs
    exact sliceUnion_ok L elems hs

/-- C8: a slice subscript with a zero step is rejected at compile time and
never evaluated.  The zero-step validation sits in the lexer, which is not
under src/ and is modelled by `checkSubscript`: any subscript containing a
zero-step range fails the validation (first conjunct), so the lexer emits an
Error lexeme and `newPath` turns an Error lexeme into a compile error
exactly as the source does (third conjunct); conversely every subscript that
passes the validation - hence every subscript inside a compiled path -
evaluates without the zero-step error, so `arraySubscriptThen` never panics
on a sequence (second conjunct). -/
theorem zero_step_slice_rejected :
    (∀ (pre post : List IndexExpr) (a b : Option Int),
      checkSubscript (Subscript.union (pre ++ IndexExpr.range a b (some 0) :: post)) = false) ∧
    (∀ (s : Subscript) (L : Nat), checkSubscript s = true →
      ∃ idxs, sliceSubscript s L = Except.ok idxs) ∧
    (∀ (msg : String) (rest : List Lexeme),
      newPath (Lexeme.error msg :: rest) = Except.error msg) := by
  refine ⟨fun pre post a b => ?_, fun s L hs => ?_, fun msg rest => ?_⟩
  · simp [checkSubscript]
  · exact checkSubscript_ok s L hs
  · simp [newPath]

/-- C8 witness: the subscript of the path dollar-bracket-1:2:0 fails the
lexer validation, a validated subscript evaluates without error, and an
Error lexeme becomes a compile error. -/
theorem zero_step_slice_rejected_witness :
    checkSubscript (Subscript.union [IndexExpr.range (some 1) (some 2) (some 0)]) = false ∧
    (∃ idxs, sliceSubscript Subscript.star 3 = Except.ok idxs) ∧
    newPath [Lexeme.error ("array index step value must be non-zero")]
      = Except.error ("array index step value must be non-zero") := by
  refine ⟨?_, ?_, ?_⟩
  · exact zero_step_slice_rejected.1 [] [] (some 1) (some 2)
  · exact zero_step_slice_rejected.2.1 Subscript.star 3 rfl
  · exact zero_step_slice_rejected.2.2 ("array index step value must be non-zero") []

/-- Spec-side description of the result of the recursive-descent star path:
for every visited node of the subtree walk, its children (mapping values and
sequence elements), the identity tail dropping uninitialized nodes. -/
def specStarDescendants (d : Node) : List Node :=
  (recurseNodes [d]).flatMap
    (fun m => (childrenOfNode m).filter (fun c => !(c.kind == Kind.zero)))

theorem flatMap_identity_filter : ∀ (ns : List Node),
    ns.flatMap (fun c => if c.kind = Kind.zero then [] else [c])
      = ns.filter (fun c => !(c.kind == Kind.zero))
  | [] => by simp
  | c :: rest => by
    by_cases h : c.kind = Kind.zero <;>
      simp [flatMap_identity_filter rest, h, List.filter_cons]

theorem childAll_identity_eval (m root : Node) :
    applyPath (.childAll .identity) m root
      = some ((childrenOfNode m).filter (fun c => !(c.kind == Kind.zero))) := by
  have hfm : ∀ (ns : List Node),
      composeEval ns (fun c => some (if c.kind = Kind.zero then [] else [c]))
        = some (ns.filter (fun c => !(c.kind == Kind.zero))) := by
    intro ns
    have h1 := @composeEval_eq_flatMap ns
      (fun c => some (if c.kind = Kind.zero then [] else [c]))
      (fun c => if c.kind = Kind.zero then [] else [c]) (fun c _ => rfl)
    rw [h1, flatMap_identity_filter]
  cases hm : m.kind <;>
    simp [applyPath, hm, childrenOfNode, hfm]

theorem sizeOf_content_lt (n : Node) : sizeOf n.content < sizeOf n := by
  cases n
  simp only [Node.content, Node.mk.sizeOf_spec]
  omega

theorem sizeOf_mem_recurseNodes : ∀ (ns : List Node) (m : Node), m ∈ recurseNodes ns →
    ∃ x ∈ ns, sizeOf m ≤ sizeOf x
  | [], m, h => by simp [recurseNodes] at h
  | n :: rest, m, h => by
    simp only [recurseNodes, List.mem_append, List.mem_cons] at h
    rcases h with h | h | h
    · rcases sizeOf_mem_recurseNodes n.content m h with ⟨x, hx, hle⟩
      have h1 : sizeOf x < sizeOf n.content := List.sizeOf_lt_of_mem hx
      have h2 : sizeOf n.content < sizeOf n := sizeOf_content_lt n
      exact ⟨n, by simp, by omega⟩
    · subst h
      exact ⟨m, by simp, le_refl _⟩
    · rcases sizeOf_mem_recurseNodes rest m h with ⟨x, hx, hle⟩
      exact ⟨x, by simp [hx], hle⟩
termination_by ns => sizeOf ns
decreasing_by
  · cases n; simp [Node.content]; omega
  · simp

theorem mem_childrenOfNode {x m : Node} (h : x ∈ childrenOfNode m) : x ∈ m.content := by
  unfold childrenOfNode at h
  split at h
  · exact mem_of_mem_oddIndexed h
  · exact h
  · simp at h

/-- C5 (amended): evaluating the recursive-descent star path over a tree
returns, for each node of the subtree walk in post-order, that node's
mapping values and sequence elements (every such child at least once); the
root node itself is never among the results, and neither are mapping key
nodes, since a mapping contributes only its value-position children. -/
theorem recursive_descent_star_result (d : Node) :
    applyPath (.recurseThen (.childAll .identity)) d d = some (specStarDescendants d) ∧
    (∀ x ∈ specStarDescendants d, x ≠ d) ∧
    (∀ x, x ∈ specStarDescendants d ↔
      ((!(x.kind == Kind.zero)) = true ∧ ∃ m ∈ recurseNodes [d], x ∈ childrenOfNode m)) := by
  refine ⟨?_, ?_, ?_⟩
  · simp only [applyPath, specStarDescendants]
    apply composeEval_eq_flatMap
    intro m _
    exact childAll_identity_eval m d
  · intro x hx
    simp only [specStarDescendants, List.mem_flatMap, List.mem_filter] at hx
    rcases hx with ⟨m, hm, hxm, _⟩
    rcases sizeOf_mem_recurseNodes [d] m hm with ⟨y, hy, hle⟩
    simp only [List.mem_singleton] at hy
    subst hy
    have h1 : sizeOf x < sizeOf m.content := List.sizeOf_lt_of_mem (mem_childrenOfNode hxm)
    have h2 : sizeOf m.content < sizeOf m := sizeOf_content_lt m
    intro he
    subst he
    omega
  · intro x
    simp only [specStarDescendants, List.mem_flatMap, List.mem_filter]
    constructor
    · rintro ⟨m, hm, hxm, hk⟩
      exact ⟨hk, m, hm, hxm⟩
    · rintro ⟨hk, m, hm, hxm⟩
      exact ⟨m, hm, hxm, hk⟩

def mapC5 : Node := Node.mk Kind.mapping ("") ("") [kW, vW]

/-- C5 counterexample: on the tree of a one-entry mapping, the compiled
recursive-descent star path returns only the value node; the root node
itself (and the key node) are not among the results, so the path does not
return every node of the tree. -/
theorem recursive_descent_star_counterexample :
    newPath [Lexeme.recursiveDescent ("..*")]
      = Except.ok (PathExpr.recurseThen (PathExpr.childAll PathExpr.identity)) ∧
    applyPath (.recurseThen (.childAll .identity)) mapC5 mapC5 = some [vW] ∧
    mapC5 ∉ ([vW] : List Node) := by
  refine ⟨?_, ?_, ?_⟩
  · simp [newPath, trimPfx]
  · simp [applyPath, recurseNodes, mapC5, kW, vW, Node.content, Node.kind, composeEval,
      oddIndexed]
  · simp [mapC5, vW]

theorem wfNodes_mem : ∀ {ns : List Node} {m : Node}, wfNode.wfNodes ns = true →
    m ∈ ns → wfNode m = true
  | [], m, _, hm => by simp at hm
  | n :: rest, m, h, hm => by
    simp only [wfNode.wfNodes, Bool.and_eq_true] at h
    rcases List.mem_cons.mp hm with he | ht
    · subst he; exact h.1
    · exact wfNodes_mem h.2 ht

theorem wfNode_content (n : Node) (h : wfNode n = true) :
    wfNode.wfNodes n.content = true := by
  cases n
  simp only [wfNode, Bool.and_eq_true] at h
  exact h.2

theorem wfNode_mem_content {n m : Node} (h : wfNode n = true) (hm : m ∈ n.content) :
    wfNode m = true :=
  wfNodes_mem (wfNode_content n h) hm

theorem wfNode_even {n : Node} (h : wfNode n = true) (hk : n.kind = Kind.mapping) :
    n.content.length % 2 = 0 := by
  cases n
  simp only [wfNode, Bool.and_eq_true, Bool.or_eq_true, Bool.not_eq_true', beq_eq_false_iff_ne,
    ne_eq, beq_iff_eq] at h
  simp only [Node.kind] at hk
  rcases h.1 with h1 | h1
  · exact absurd hk h1
  · simpa [Node.content] using h1

theorem wf_mem_recurseNodes : ∀ (ns : List Node) (m : Node),
    (∀ x ∈ ns, wfNode x = true) → m ∈ recurseNodes ns → wfNode m = true
  | [], m, _, hm => by simp [recurseNodes] at hm
  | n :: rest, m, h, hm => by
    simp only [recurseNodes, List.mem_append, List.mem_cons] at hm
    have hn : wfNode n = true := h n (by simp)
    rcases hm with hm | hm | hm
    · exact wf_mem_recurseNodes n.content m
        (fun x hx => wfNode_mem_content hn hx) hm
    · subst hm; exact hn
    · exact wf_mem_recurseNodes rest m (fun x hx => h x (by simp [hx])) hm
termination_by ns => sizeOf ns
decreasing_by
  · cases n; simp [Node.content]; omega
  · simp

theorem lookupFirst_found_mem (name : String) : ∀ (content : List Node) (v : Node),
    lookupFirst name content = Lookup.found v → v ∈ content
  | [], v, h => by simp [lookupFirst] at h
  | [k], v, h => by by_cases hk : k.value = name <;> simp [lookupFirst, hk] at h
  | k :: w :: rest, v, h => by
    by_cases hk : k.value = name
    · simp only [lookupFirst, if_pos hk, Lookup.found.injEq] at h
      subst h; simp
    · simp only [lookupFirst, if_neg hk] at h
      have := lookupFirst_found_mem name rest v h
      simp [this]

theorem lookupFirstKey_mem (name : String) : ∀ (content : List Node) (k : Node),
    lookupFirstKey name content = some k → k ∈ content
  | [], k, h => by simp [lookupFirstKey] at h
  | [x], k, h => by
    by_cases hk : x.value = name <;> simp [lookupFirstKey, hk] at h
    subst h; simp
  | x :: w :: rest, k, h => by
    by_cases hk : x.value = name
    · simp only [lookupFirstKey, if_pos hk, Option.some.injEq] at h
      subst h; simp
    · simp only [lookupFirstKey, if_neg hk] at h
      have := lookupFirstKey_mem name rest k h
      simp [this]

theorem pairsOf_snd_mem : ∀ {content : List Node} {kv : Node × Node},
    kv ∈ pairsOf content → kv.2 ∈ content
  | [], kv, h => by simp [pairsOf] at h
  | [k], kv, h => by simp [pairsOf] at h
  | k :: v :: rest, kv, h => by
    simp only [pairsOf, List.mem_cons] at h
    rcases h with h | h
    · subst h; simp
    · have := pairsOf_snd_mem h
      simp [this]

theorem specBracketEmission_mem {names : List String} {content : List Node} {v : Node}
    (h : v ∈ specBracketEmission names content) : v ∈ content := by
  simp only [specBracketEmission, List.mem_flatMap, List.mem_map, List.mem_filter] at h
  rcases h with ⟨nm, _, kv, ⟨hkv, _⟩, hv⟩
  subst hv
  exact pairsOf_snd_mem hkv

theorem seqFilterEval_isSome {fil : Node → Option Bool} {f : Node → Option (List Node)} :
    ∀ {cs : List Node}, (∀ c ∈ cs, (fil c).isSome ∧ (f c).isSome) →
    (seqFilterEval fil f cs).isSome
  | [], _ => by simp [seqFilterEval]
  | c :: rest, h => by
    have hc := h c (by simp)
    rcases Option.isSome_iff_exists.mp hc.1 with ⟨b, hb⟩
    have ht : (seqFilterEval fil f rest).isSome :=
      seqFilterEval_isSome (fun x hx => h x (by simp [hx]))
    rcases Option.isSome_iff_exists.mp ht with ⟨t, htt⟩
    cases b with
    | false => simp [seqFilterEval, hb, htt]
    | true =>
      rcases Option.isSome_iff_exists.mp hc.2 with ⟨r, hr⟩
      simp [seqFilterEval, hb, hr, htt]

theorem mem_of_filterMap_get? {content : List Node} {idxs : List Int} {x : Node}
    (h : x ∈ idxs.filterMap (fun i =>
      if 0 ≤ i ∧ i < (content.length : Int) then content.get? i.toNat else none)) :
    x ∈ content := by
  rcases List.mem_filterMap.mp h with ⟨i, _, hi⟩
  by_cases hc : 0 ≤ i ∧ i < (content.length : Int)
  · rw [if_pos hc] at hi
    exact List.get?_mem hi
  · rw [if_neg hc] at hi
    cases hi

mutual

theorem applyPath_isSome : ∀ (p : PathExpr) (n root : Node), wfSub p = true →
    wfNode n = true → wfNode root = true → (applyPath p n root).isSome
  | .identity, n, root, hp, hn, hr => by simp [applyPath]
  | .rootThen sub, n, root, hp, hn, hr => by simp [wfSub] at hp
  | .recurseThen inner, n, root, hp, hn, hr => by
    simp only [wfSub] at hp
    simp only [applyPath]
    apply composeEval_isSome
    intro m hm
    refine applyPath_isSome inner m root hp ?_ hr
    refine wf_mem_recurseNodes [n] m ?_ hm
    intro x hx
    rw [List.mem_singleton.mp hx]
    exact hn
  | .childAll sub, n, root, hp, hn, hr => by
    simp only [wfSub] at hp
    simp only [applyPath]
    split
    · apply composeEval_isSome
      intro m hm
      exact applyPath_isSome sub m root hp
        (wfNode_mem_content hn (mem_of_mem_oddIndexed hm)) hr
    · apply composeEval_isSome
      intro m hm
      exact applyPath_isSome sub m root hp (wfNode_mem_content hn hm) hr
    · simp
  | .childNamed name sub, n, root, hp, hn, hr => by
    simp only [wfSub] at hp
    simp only [applyPath]
    by_cases hm : n.kind = Kind.mapping
    · have he := wfNode_even hn hm
      simp only [hm, ne_eq, not_true_eq_false, if_false]
      cases hl : lookupFirst name n.content with
      | panicked =>
        exfalso
        rw [lookupFirst_eq_firstValue name n.content he] at hl
        cases hf : firstValue name n.content <;> rw [hf] at hl <;>
          simp [Option.elim] at hl
      | missing => simp
      | found v =>
        exact applyPath_isSome sub v root hp
          (wfNode_mem_content hn (lookupFirst_found_mem name n.content v hl)) hr
    · simp [hm]
  | .bracketChild names sub, n, root, hp, hn, hr => by
    simp only [wfSub] at hp
    simp only [applyPath]
    by_cases hm : n.kind = Kind.mapping
    · have he := wfNode_even hn hm
      simp only [hm, ne_eq, not_true_eq_false, if_false]
      rw [bracketEmit_eq n.content he names]
      apply composeEval_isSome
      intro m hmem
      exact applyPath_isSome sub m root hp
        (wfNode_mem_content hn (specBracketEmission_mem hmem)) hr
    · simp [hm]
  | .arraySub s sub, n, root, hp, hn, hr => by
    simp only [wfSub, Bool.and_eq_true] at hp
    simp only [applyPath]
    split
    · apply composeEval_isSome
      intro m hm
      exact applyPath_isSome sub m root hp.2
        (wfNode_mem_content hn (mem_of_mem_oddIndexed hm)) hr
    · split
      · simp
      · rcases checkSubscript_ok s n.content.length hp.1 with ⟨idxs, hidx⟩
        rw [hidx]
        apply composeEval_isSome
        intro m hm
        exact applyPath_isSome sub m root hp.2
          (wfNode_mem_content hn (mem_of_filterMap_get? hm)) hr
  | .filterStep f sub, n, root, hp, hn, hr => by
    simp only [wfSub, Bool.and_eq_true] at hp
    simp only [applyPath]
    split
    · apply seqFilterEval_isSome
      intro c hc
      exact ⟨evalFilter_isSome f c root hp.1 (wfNode_mem_content hn hc) hr,
        applyPath_isSome sub c root hp.2 (wfNode_mem_content hn hc) hr⟩
    · rcases Option.isSome_iff_exists.mp (evalFilter_isSome f n root hp.1 hn hr) with ⟨b, hb⟩
      rw [hb]
      cases b with
      | false => simp
      | true =>
        simp only [if_true]
        exact applyPath_isSome sub n root hp.2 hn hr
  | .recursiveFilterStep f sub, n, root, hp, hn, hr => by
    simp only [wfSub, Bool.and_eq_true] at hp
    simp only [applyPath]
    rcases Option.isSome_iff_exists.mp (evalFilter_isSome f n root hp.1 hn hr) with ⟨b, hb⟩
    rw [hb]
    cases b with
    | false => simp
    | true =>
      simp only [if_true]
      exact applyPath_isSome sub n root hp.2 hn hr
  | .propNameChild name sub, n, root, hp, hn, hr => by
    simp only [wfSub] at hp
    simp only [applyPath]
    by_cases hm : n.kind = Kind.mapping
    · simp only [hm, ne_eq, not_true_eq_false, if_false]
      cases hl : lookupFirstKey name n.content with
      | none => simp
      | some k =>
        exact applyPath_isSome sub k root hp
          (wfNode_mem_content hn (lookupFirstKey_mem name n.content k hl)) hr
    · simp [hm]
  | .propNameBracket names sub, n, root, hp, hn, hr => by
    simp only [wfSub] at hp
    simp only [applyPath]
    by_cases hm : n.kind = Kind.mapping
    · simp only [hm, ne_eq, not_true_eq_false, if_false]
      apply composeEval_isSome
      intro m hmem
      rcases List.mem_flatMap.mp hmem with ⟨nm, _, hmk⟩
      have : m ∈ n.content :=
        mem_of_mem_evenIndexed (List.mem_filter.mp hmk).1
      exact applyPath_isSome sub m root hp (wfNode_mem_content hn this) hr
    · simp [hm]
  | .propNameSub s sub, n, root, hp, hn, hr => by
    simp only [wfSub, Bool.and_eq_true] at hp
    simp only [applyPath]
    split
    · apply composeEval_isSome
      intro m hm
      exact applyPath_isSome sub m root hp.2
        (wfNode_mem_content hn (mem_of_mem_evenIndexed hm)) hr
    · simp

theorem evalFilter_isSome : ∀ (f : FilterExpr) (n root : Node), wfFilter f = true →
    wfNode n = true → wfNode root = true → (evalFilter f n root).isSome
  | .exist t, n, root, hf, hn, hr => by
    simp only [wfFilter] at hf
    simp only [evalFilter]
    rcases Option.isSome_iff_exists.mp (evalTerm_isSome t n root hf hn hr) with ⟨vs, hv⟩
    rw [hv]
    simp
  | .cmp op l r, n, root, hf, hn, hr => by
    simp only [wfFilter, Bool.and_eq_true] at hf
    simp only [evalFilter]
    rcases Option.isSome_iff_exists.mp (evalTerm_isSome l n root hf.1 hn hr) with ⟨ls, hl⟩
    rcases Option.isSome_iff_exists.mp (evalTerm_isSome r n root hf.2 hn hr) with ⟨rs, hrr⟩
    rw [hl, hrr]
    simp
  | .not e, n, root, hf, hn, hr => by
    simp only [wfFilter] at hf
    simp only [evalFilter]
    rcases Option.isSome_iff_exists.mp (evalFilter_isSome e n root hf hn hr) with ⟨b, hb⟩
    rw [hb]
    simp
  | .and l r, n, root, hf, hn, hr => by
    simp only [wfFilter, Bool.and_eq_true] at hf
    simp only [evalFilter]
    rcases Option.isSome_iff_exists.mp (evalFilter_isSome l n root hf.1 hn hr) with ⟨b, hb⟩
    rw [hb]
    cases b with
    | false => simp
    | true =>
      simp only [if_true]
      exact evalFilter_isSome r n root hf.2 hn hr
  | .or l r, n, root, hf, hn, hr => by
    simp only [wfFilter, Bool.and_eq_true] at hf
    simp only [evalFilter]
    rcases Option.isSome_iff_exists.mp (evalFilter_isSome l n root hf.1 hn hr) with ⟨b, hb⟩
    rw [hb]
    cases b with
    | true => simp
    | false =>
      simp only [Bool.false_eq_true, if_false]
      exact evalFilter_isSome r n root hf.2 hn hr

theorem evalTerm_isSome : ∀ (t : FilterTerm) (n root : Node), wfTerm t = true →
    wfNode n = true → wfNode root = true → (evalTerm t n root).isSome
  | .lit v, n, root, _, _, _ => by simp [evalTerm]
  | .atPath p, n, root, ht, hn, hr => by
    simp only [wfTerm] at ht
    simp only [evalTerm]
    rcases Option.isSome_iff_exists.mp (applyPath_isSome p n root ht hn hr) with ⟨ns, h⟩
    rw [h]
    simp
  | .rootPath p, n, root, ht, hn, hr => by
    simp only [wfTerm] at ht
    simp only [evalTerm]
    rcases Option.isSome_iff_exists.mp (applyPath_isSome p root root ht hr hr) with ⟨ns, h⟩
    rw [h]
    simp

end

theorem wfPathTop_cases {p : PathExpr} (h : wfPathTop p = true) :
    (∃ sub, p = .rootThen sub ∧ wfSub sub = true) ∨ wfSub p = true := by
  cases p
  case rootThen sub => exact Or.inl ⟨sub, rfl, h⟩
  all_goals exact Or.inr h

def emptyDoc : Node := Node.mk Kind.document ("") ("") []

/-- C1 counterexample: the compiled path consisting of a lone root step,
applied to a Document node with empty content, panics: the root unwrap of
path.go indexes content[0] out of range, so Find does not terminate normally
for every compiled path and node, contrary to the claim's inclusion of empty
Document nodes. -/
theorem find_total_counterexample :
    newPath [Lexeme.root] = Except.ok (PathExpr.rootThen PathExpr.identity) ∧
    Find (PathExpr.rootThen PathExpr.identity) emptyDoc = none := by
  refine ⟨?_, ?_⟩
  · simp [newPath]
  · simp [Find, findNodes, applyPath, emptyDoc, Node.kind, Node.content]

/-- C1 (amended): for every lexer-producible compiled path and every
well-formed YAML tree (mapping content even-length throughout) whose top
node, when it is a Document consumed by a root step, has non-empty content,
Find terminates normally and returns a list of nodes paired with a nil
error; in particular matchers applied to incompatible node kinds contribute
empty results rather than errors, and array subscripts evaluated against
Sequences never fail since the lexer excludes zero-step slices. -/
theorem find_total (p : PathExpr) (n : Node) (hp : wfPathTop p = true)
    (hn : wfNode n = true) (hd : n.kind = Kind.document → n.content ≠ []) :
    ∃ r, Find p n = some (r, none) := by
  have key : (applyPath p n n).isSome := by
    rcases wfPathTop_cases hp with ⟨sub, rfl, hsub⟩ | hsub
    · simp only [applyPath]
      by_cases hk : n.kind = Kind.document
      · rw [if_pos hk]
        cases hc : n.content with
        | nil => exact absurd hc (hd hk)
        | cons n0 rest =>
          exact applyPath_isSome sub n0 n hsub (wfNode_mem_content hn (by simp [hc])) hn
      · rw [if_neg hk]
        exact applyPath_isSome sub n n hsub hn hn
    · exact applyPath_isSome p n n hsub hn hn
  rcases Option.isSome_iff_exists.mp key with ⟨r, hr⟩
  exact ⟨r, by simp [Find, findNodes, hr]⟩

/-- C1 witness: the compiled path dollar-dot-a applied to a concrete
well-formed mapping returns a result list with a nil error. -/
theorem find_total_witness :
    ∃ r, Find (PathExpr.rootThen (PathExpr.childNamed ("a") PathExpr.identity)) mapW
      = some (r, none) := by
  refine find_total (PathExpr.rootThen (PathExpr.childNamed ("a") PathExpr.identity)) mapW
    ?_ ?_ ?_
  · rfl
  · simp [wfNode, wfNode.wfNodes, mapW, kW, vW, kW2, vW2, Node.content]
  · intro h
    simp [mapW, Node.kind] at h
